import Mathlib

/-!
Verification of the iterator-combinator library `src/iterating.ts`.

Iterators are pull-based, single-use producers.  We embed an iterator as the
list of elements it has left to produce; pulling returns the next
result-of-pull (`some v` for `(hasValue, value)`, `none` for exhaustion)
together with the iterator's remaining state.  Caller-supplied functors that
mutate captured variables (`accumulator`, `shouldBreakAfterIteration`) are
embedded by threading that captured state explicitly and returning the
"break was requested" flag.
-/

namespace Iterating

/-- Pull once from a list-backed iterator: the result-of-pull (`some v` models
`(done: false, value: v)`, `none` models `done: true`) paired with the
iterator's remaining state. -/
def pull {α : Type} (iterator : List α) : Option α × List α :=
  match iterator with
  | [] => (none, [])
  | x :: xs => (some x, xs)

/-- Embeds `applyOnEachOf` (src/iterating.ts lines 146-159).  The source pulls
elements in a `for..of` loop, invokes `functor(element, breakAfterIteration)`
and breaks once the `shouldBreakAfterIteration` flag has been set.  Here the
functor's captured mutable environment is the explicit state `s : σ` and its
returned `Bool` records whether it invoked `breakAfterIteration` during this
call.  The value returned is the final environment together with the part of
the source iterator that was never pulled. -/
def applyOnEachOf {α σ : Type} (iterator : List α) (functor : σ → α → σ × Bool) (s : σ) : σ × List α :=
  match iterator with
  | [] => (s, [])
  | element :: rest =>
    let r := functor s element
    if r.2 then (r.1, rest) else applyOnEachOf rest functor r.1

/-- Embeds `reduce` (src/iterating.ts lines 196-205): drains the iterator via
`applyOnEachOf`, the accumulator being the functor's captured state.  Returns
the final accumulator together with the unconsumed rest of the iterator. -/
def reduce {α U : Type} (iterator : List α) (functor : U → α → U × Bool) (initialValue : U) : U × List α :=
  applyOnEachOf iterator functor initialValue

/-- Embeds `checkAllFulfill` (src/iterating.ts lines 207-221): reduce with
accumulator `accumulator && elementFulfillsPredicate`, breaking early as soon
as one element fails the predicate. -/
def checkAllFulfill {α : Type} (iterator : List α) (predicate : α → Bool) : Bool × List α :=
  reduce iterator
    (fun accumulator element =>
      let elementFulfillsPredicate := predicate element
      (accumulator && elementFulfillsPredicate, !elementFulfillsPredicate))
    true

/-- Embeds `checkAnyFulfills` (src/iterating.ts lines 223-228): the negation
of `checkAllFulfill` with the pointwise-negated predicate. -/
def checkAnyFulfills {α : Type} (iterator : List α) (predicate : α → Bool) : Bool × List α :=
  let negatedPredicate := fun element => !(predicate element)
  let r := checkAllFulfill iterator negatedPredicate
  (!r.1, r.2)

/-- Embeds `spread` (src/iterating.ts lines 233-235): materializing a
list-backed iterator yields exactly its remaining elements in order. -/
def spread {α : Type} (iterator : List α) : List α :=
  iterator

/-- Outcome of one iteration of the do-while loop of `zip`. -/
inductive ZipStep (α : Type) where
  | yield (values : List α) (rests : List (List α))
  | done
  | error (msg : String)
deriving DecidableEq

/-- The message of the error thrown by `zip` (src/iterating.ts line 26). -/
def zipErrorMessage : String := "some iterators are consumed before others"

/-- One iteration of the do-while loop of `zip` (src/iterating.ts lines
13-33): pull once from every iterator in declaration order, compute
`someHaveNext`/`allHaveNext` with the library's own
`checkAnyFulfills`/`checkAllFulfill`, throw when they disagree, yield the
tuple of values when all have a value, and end otherwise.  The source reads
`result.value` of every result when `allHaveNext`; `filterMap id` extracts
exactly those values. -/
def zipStep {α : Type} (iterators : List (List α)) : ZipStep α :=
  let pulls := iterators.map pull
  let results := pulls.map Prod.fst
  let resultHasNext : Option α → Bool := fun result => result.isSome
  let someHaveNext := (checkAnyFulfills results resultHasNext).1
  let allHaveNext := (checkAllFulfill results resultHasNext).1
  if someHaveNext && !allHaveNext then ZipStep.error zipErrorMessage
  else if allHaveNext then ZipStep.yield (results.filterMap id) (pulls.map Prod.snd)
  else ZipStep.done

/-- Drains the sequence produced by `zip`, with `fuel` bounding the number of
value-yielding pulls: `some (Except.ok vs)` when the sequence ends normally
after yielding `vs`, `some (Except.error msg)` when a pull throws, `none`
when the sequence is still yielding after `fuel` pulls. -/
def zipRun {α : Type} : Nat → List (List α) → Option (Except String (List (List α)))
  | 0, iterators =>
    match zipStep iterators with
    | ZipStep.error msg => some (Except.error msg)
    | ZipStep.done => some (Except.ok [])
    | ZipStep.yield _ _ => none
  | n + 1, iterators =>
    match zipStep iterators with
    | ZipStep.error msg => some (Except.error msg)
    | ZipStep.done => some (Except.ok [])
    | ZipStep.yield values rests =>
      Option.map (Except.map (fun t => values :: t)) (zipRun n rests)

/-- Embeds `PeekableIterator` (src/iterating.ts lines 43-66): the remaining
source iterator together with the buffered pre-fetched result. -/
structure PeekableIterator (α : Type) where
  _iterator : List α
  _nextResult : Option α
deriving DecidableEq

/-- The constructor (src/iterating.ts lines 48-51): stores the source and
eagerly pulls the first result into the buffer. -/
def PeekableIterator.create {α : Type} (iterator : List α) : PeekableIterator α :=
  let r := pull iterator
  ⟨r.2, r.1⟩

/-- `next()` (src/iterating.ts lines 57-61): emits the buffered result and
pulls one replacement from the source. -/
def PeekableIterator.next {α : Type} (self : PeekableIterator α) : Option α × PeekableIterator α :=
  let currentResult := self._nextResult
  let r := pull self._iterator
  (currentResult, ⟨r.2, r.1⟩)

/-- `peek()` (src/iterating.ts lines 63-65): returns the buffered result; no
state change. -/
def PeekableIterator.peek {α : Type} (self : PeekableIterator α) : Option α :=
  self._nextResult

/-- The sequence of the first `n` results emitted by repeatedly calling
`next()` on a `PeekableIterator`. -/
def emitViaPeekable {α : Type} : Nat → PeekableIterator α → List (Option α)
  | 0, _ => []
  | n + 1, p =>
    let r := p.next
    r.1 :: emitViaPeekable n r.2

/-- The sequence of the first `n` results obtained by pulling the source
iterator directly. -/
def emitViaSource {α : Type} : Nat → List α → List (Option α)
  | 0, _ => []
  | n + 1, l =>
    let r := pull l
    r.1 :: emitViaSource n r.2

/-- The loop of `range` (src/iterating.ts lines 74-86): starting at `i`,
yield and advance by `stepSize` while the direction-aware continuation
predicate holds.  The source comment assumes `stepSize != 0` (line 74); with
`stepSize = 0` the source loop never terminates, so the embedding guards the
recursion on `stepSize ≠ 0` and is meaningful only under that precondition. -/
def rangeLoop (i stop stepSize : Int) : List Int :=
  if h₀ : (if 0 < stepSize then i < stop else stop < i) ∧ stepSize ≠ 0 then
    i :: rangeLoop (i + stepSize) stop stepSize
  else []
termination_by (if 0 < stepSize then stop - i else i - stop).toNat
decreasing_by
  rcases h₀ with ⟨hc, hs⟩
  by_cases hpos : 0 < stepSize
  · simp only [dif_pos hpos, if_pos hpos] at hc ⊢
    omega
  · simp only [dif_neg hpos, if_neg hpos] at hc ⊢
    omega

/-- Embeds `range` (src/iterating.ts lines 68-90): the loop, then `stop`
appended once more when `stopIncluded`. -/
def range (start stop stepSize : Int) (stopIncluded : Bool) : List Int :=
  rangeLoop start stop stepSize ++ (if stopIncluded then [stop] else [])

/-- Embeds `repeat` (src/iterating.ts lines 92-96), named `repeatTimes`
because `repeat` is a reserved word in Lean: yields `value` once per element
of `range(1, times, 1, stopIncluded=true)`. -/
def repeatTimes {α : Type} (value : α) (times : Int) : List α :=
  (range 1 times 1 true).map (fun _ => value)

/-- Embeds `map` (src/iterating.ts lines 120-125): yield `functor element`
for each pulled element. -/
def map {α β : Type} (iterator : List α) (functor : α → β) : List β :=
  match iterator with
  | [] => []
  | element :: rest => functor element :: map rest functor

/-- The while loop of `reverse` (src/iterating.ts lines 140-142): while the
buffered sequence is nonempty, remove and yield its last element. -/
def reverseYieldLoop {α : Type} (sequence : List α) : List α :=
  if h : 0 < sequence.length then
    sequence.getLast (List.length_pos.mp h) :: reverseYieldLoop sequence.dropLast
  else []
termination_by sequence.length
decreasing_by simp only [List.length_dropLast]; omega

/-- Embeds `reverse` (src/iterating.ts lines 136-143): spread the source into
a buffer, then repeatedly pop and yield the last element. -/
def reverse {α : Type} (iterator : List α) : List α :=
  reverseYieldLoop (spread iterator)

/-- Embeds `smear` (src/iterating.ts lines 165-178): carry an accumulator,
the functor returning the pair `(giveOn, yield)`. -/
def smear {α U V : Type} (iterator : List α) (functor : U → α → U × V) (initialValue : U) : List V :=
  match iterator with
  | [] => []
  | element :: rest =>
    let result := functor initialValue element
    result.2 :: smear rest functor result.1

/-- The functor of `sumCumulatively` (src/iterating.ts lines 182-190): gives
on and yields the same cumulative sum. -/
def sumFunctor : Int → Int → Int × Int := fun givenOn element =>
  let cumulativeSum := givenOn + element
  (cumulativeSum, cumulativeSum)

/-- Embeds `sumCumulatively` (src/iterating.ts lines 180-193). -/
def sumCumulatively (iterator : List Int) : List Int :=
  smear iterator sumFunctor 0

/-- The reduce functor of the spec's early-break example:
`(acc, e, brk) => e > 3 ? (brk(), acc) : acc + e`. -/
def sumUntilAboveThreeFunctor : Int → Int → Int × Bool := fun accumulator element =>
  if element > 3 then (accumulator, true) else (accumulator + element, false)

/-! ### Basic lemmas about the embedding -/

lemma pull_eq {α : Type} (l : List α) : pull l = (l.head?, l.tail) := by
  cases l <;> rfl

lemma pull_fst_fun {α : Type} : (fun l : List α => (pull l).1) = List.head? := by
  funext l; cases l <;> rfl

lemma pull_snd_fun {α : Type} : (fun l : List α => (pull l).2) = List.tail := by
  funext l; cases l <;> rfl

lemma checkAllFulfill_nil {α : Type} (p : α → Bool) :
    checkAllFulfill ([] : List α) p = (true, []) := rfl

lemma checkAllFulfill_cons_pos {α : Type} (p : α → Bool) (x : α) (xs : List α)
    (hx : p x = true) : checkAllFulfill (x :: xs) p = checkAllFulfill xs p := by
  simp [checkAllFulfill, reduce, applyOnEachOf, hx]

lemma checkAllFulfill_cons_neg {α : Type} (p : α → Bool) (x : α) (xs : List α)
    (hx : p x = false) : checkAllFulfill (x :: xs) p = (false, xs) := by
  simp [checkAllFulfill, reduce, applyOnEachOf, hx]

lemma checkAllFulfill_fst {α : Type} (p : α → Bool) (l : List α) :
    (checkAllFulfill l p).1 = l.all p := by
  induction l with
  | nil => rfl
  | cons x xs ih =>
    by_cases hx : p x
    · rw [checkAllFulfill_cons_pos p x xs hx, ih]
      simp [hx]
    · rw [checkAllFulfill_cons_neg p x xs (by simpa using hx)]
      simp [hx]

lemma checkAllFulfill_break {α : Type} (p : α → Bool) (l₁ : List α) (x : α) (l₂ : List α)
    (h₁ : ∀ y ∈ l₁, p y = true) (hx : p x = false) :
    checkAllFulfill (l₁ ++ x :: l₂) p = (false, l₂) := by
  induction l₁ with
  | nil => simpa using checkAllFulfill_cons_neg p x l₂ hx
  | cons a as ih =>
    rw [List.cons_append, checkAllFulfill_cons_pos p a _ (h₁ a (by simp))]
    exact ih (fun y hy => h₁ y (by simp [hy]))

lemma checkAnyFulfills_fst {α : Type} (p : α → Bool) (l : List α) :
    (checkAnyFulfills l p).1 = l.any p := by
  simp only [checkAnyFulfills, checkAllFulfill_fst]
  induction l with
  | nil => rfl
  | cons x xs ih => cases hx : p x <;> simp [hx, ih]

/-! ### Per-step characterization of `zip` -/

lemma pull_fst_comp {α : Type} : (Prod.fst ∘ pull : List α → Option α) = List.head? := by
  funext l; cases l <;> rfl

lemma pull_snd_comp {α : Type} : (Prod.snd ∘ pull : List α → List α) = List.tail := by
  funext l; cases l <;> rfl

lemma zipStep_yield {α : Type} (iterators : List (List α)) (h : ∀ l ∈ iterators, l ≠ []) :
    zipStep iterators =
      ZipStep.yield (iterators.filterMap List.head?) (iterators.map List.tail) := by
  have hall : (checkAllFulfill (iterators.map List.head?)
      (fun result => result.isSome)).1 = true := by
    rw [checkAllFulfill_fst, List.all_eq_true]
    intro r hr
    rcases List.mem_map.mp hr with ⟨l, hl, rfl⟩
    rcases List.exists_cons_of_ne_nil (h l hl) with ⟨a, as, rfl⟩
    rfl
  simp only [zipStep, List.map_map, pull_fst_comp, pull_snd_comp, List.filterMap_map,
    Function.id_comp]
  rw [hall]
  simp

lemma zipStep_done {α : Type} (iterators : List (List α)) (hne : iterators ≠ [])
    (h : ∀ l ∈ iterators, l = []) : zipStep iterators = ZipStep.done := by
  have hall : (checkAllFulfill (iterators.map List.head?)
      (fun result => result.isSome)).1 = false := by
    rw [checkAllFulfill_fst, List.all_eq_false]
    rcases List.exists_cons_of_ne_nil hne with ⟨a, as, rfl⟩
    refine ⟨a.head?, List.mem_map.mpr ⟨a, by simp, rfl⟩, ?_⟩
    have ha : a = [] := h a (by simp)
    subst ha
    simp
  have hany : (checkAnyFulfills (iterators.map List.head?)
      (fun result => result.isSome)).1 = false := by
    rw [checkAnyFulfills_fst, List.any_eq_false]
    intro r hr
    rcases List.mem_map.mp hr with ⟨l, hl, rfl⟩
    have hl0 : l = [] := h l hl
    subst hl0
    simp
  simp only [zipStep, List.map_map, pull_fst_comp, pull_snd_comp, List.filterMap_map,
    Function.id_comp]
  rw [hall, hany]
  simp

lemma zipStep_error {α : Type} (iterators : List (List α))
    (hempty : ∃ l ∈ iterators, l = []) (hvalue : ∃ l ∈ iterators, l ≠ []) :
    zipStep iterators = ZipStep.error zipErrorMessage := by
  have hall : (checkAllFulfill (iterators.map List.head?)
      (fun result => result.isSome)).1 = false := by
    rw [checkAllFulfill_fst, List.all_eq_false]
    rcases hempty with ⟨l, hl, rfl⟩
    exact ⟨List.head? [], List.mem_map.mpr ⟨[], hl, rfl⟩, by simp⟩
  have hany : (checkAnyFulfills (iterators.map List.head?)
      (fun result => result.isSome)).1 = true := by
    rw [checkAnyFulfills_fst, List.any_eq_true]
    rcases hvalue with ⟨l, hl, hlne⟩
    rcases List.exists_cons_of_ne_nil hlne with ⟨a, as, rfl⟩
    exact ⟨some a, List.mem_map.mpr ⟨a :: as, hl, rfl⟩, rfl⟩
  simp only [zipStep, List.map_map, pull_fst_comp, pull_snd_comp, List.filterMap_map,
    Function.id_comp]
  rw [hall, hany]
  simp

/-! ### Lemmas about `reverse`, `map`, `smear` and `PeekableIterator` -/

lemma reverseYieldLoop_eq_of_le {α : Type} :
    ∀ (n : Nat) (l : List α), l.length ≤ n → reverseYieldLoop l = l.reverse := by
  intro n
  induction n with
  | zero =>
    intro l hl
    have : l = [] := by cases l <;> simp_all
    subst this
    rw [reverseYieldLoop]
    simp
  | succ n ih =>
    intro l hl
    rcases l with _ | ⟨x, xs⟩
    · rw [reverseYieldLoop]
      simp
    · rw [reverseYieldLoop]
      have hpos : 0 < (x :: xs).length := by simp
      rw [dif_pos hpos]
      have hlen : (x :: xs).dropLast.length ≤ n := by
        simp only [List.length_dropLast] at *
        simp at hl ⊢
        omega
      rw [ih _ hlen]
      have hne : (x :: xs) ≠ [] := by simp
      conv_rhs => rw [← List.dropLast_append_getLast hne]
      rw [List.reverse_append]
      rfl

lemma reverse_eq {α : Type} (l : List α) : reverse l = l.reverse :=
  reverseYieldLoop_eq_of_le l.length l (Nat.le_refl _)

lemma map_eq {α β : Type} (l : List α) (f : α → β) : map l f = l.map f := by
  induction l with
  | nil => rfl
  | cons x xs ih => simp [map, ih]

lemma smear_sum :
    ∀ (l : List Int) (s : Int) (n : Nat), n < l.length →
      (smear l sumFunctor s)[n]? = some (s + (l.take (n + 1)).sum) := by
  intro l
  induction l with
  | nil => intro s n hn; simp at hn
  | cons x xs ih =>
    intro s n hn
    cases n with
    | zero => simp [smear, sumFunctor]
    | succ n =>
      have hn' : n < xs.length := by simpa using hn
      have : (smear (x :: xs) sumFunctor s)[n + 1]? = (smear xs sumFunctor (s + x))[n]? := by
        simp [smear, sumFunctor]
      rw [this, ih (s + x) n hn']
      simp only [List.take, List.sum_cons]
      congr 1
      ring

lemma peekable_next_create {α : Type} (l : List α) :
    (PeekableIterator.create l).next = (l.head?, PeekableIterator.create l.tail) := by
  cases l <;> simp [PeekableIterator.create, PeekableIterator.next, pull]

lemma emitViaPeekable_eq {α : Type} :
    ∀ (n : Nat) (l : List α), emitViaPeekable n (PeekableIterator.create l) = emitViaSource n l := by
  intro n
  induction n with
  | zero => intro l; rfl
  | succ n ih =>
    intro l
    rw [emitViaPeekable, emitViaSource]
    simp only [peekable_next_create, pull_eq]
    rw [ih l.tail]

/-! ### The claims -/

/-- C1: on each step `zip` pulls once from every iterator of the tuple; while
all have a value it yields the tuple of their values in order, it ends
normally when all become exhausted at the same step, and it raises the
unequal-length error at the first step at which some iterators are exhausted
while others still have a value.  In particular zipping `[1,2,3]` with
`[10,20,30]` yields exactly the three pairs and then ends, while zipping
`[1,2,3]` with `[10,20]` raises on the third pull. -/
theorem zip_unequal_length_policy :
    (∀ (α : Type) (iterators : List (List α)),
      ((∀ l ∈ iterators, l ≠ []) →
        zipStep iterators =
          ZipStep.yield (iterators.filterMap List.head?) (iterators.map List.tail))
      ∧ (iterators ≠ [] → (∀ l ∈ iterators, l = []) → zipStep iterators = ZipStep.done)
      ∧ ((∃ l ∈ iterators, l = []) → (∃ l ∈ iterators, l ≠ []) →
          zipStep iterators = ZipStep.error zipErrorMessage))
    ∧ zipRun 3 [[1, 2, 3], [10, 20, 30]] = some (Except.ok [[1, 10], [2, 20], [3, 30]])
    ∧ zipRun 3 [[1, 2, 3], [10, 20]] = some (Except.error zipErrorMessage) := by
  refine ⟨fun α iterators => ⟨?_, ?_, ?_⟩, by rfl, by rfl⟩
  · exact zipStep_yield iterators
  · exact zipStep_done iterators
  · exact zipStep_error iterators

/-- Witness for C1 at concrete inputs: the first iterator still has a value
while the second is exhausted, so the step raises the unequal-length error. -/
theorem zip_unequal_length_policy_witness :
    zipStep [[1], ([] : List Nat)] = ZipStep.error zipErrorMessage :=
  (zip_unequal_length_policy.1 Nat [[1], []]).2.2 ⟨[], by simp, rfl⟩ ⟨[1], by simp, by simp⟩

/-- C2 counterexample: in `reduce([1,2,3,4,5], (acc,e,brk) => e>3 ? (brk(),
acc) : acc+e, 0)` it is false that both 4 and 5 are never pulled: the
unconsumed rest of the source after the reduction is `[5]`, not `[4, 5]` —
the element 4 is pulled in order to evaluate the break condition. -/
theorem reduce_early_break_counterexample :
    ¬((reduce [1, 2, 3, 4, 5] sumUntilAboveThreeFunctor 0).1 = 6
      ∧ (reduce [1, 2, 3, 4, 5] sumUntilAboveThreeFunctor 0).2 = [4, 5]) := by
  decide

/-- C2 amended: the reduction returns 6 (= 1+2+3) and leaves exactly `[5]`
unconsumed: the element 5 is never pulled, while 4 is pulled once to evaluate
the break condition without contributing to the accumulator. -/
theorem reduce_early_break_amended :
    reduce [1, 2, 3, 4, 5] sumUntilAboveThreeFunctor 0 = (6, [5]) := by
  decide

/-- C3: the code evaluated at the failing input `times = 0`: `repeat(7, 0)`
yields `7` once instead of zero times, because the loop of
`range(1, 0, 1, stopIncluded=true)` never runs but the inclusive endpoint is
still appended; for `times ≥ 1` the count is exact, as the second conjunct
illustrates at `times = 3`. -/
theorem repeat_zero_times_bug :
    repeatTimes (7 : Int) 0 = [7] ∧ repeatTimes (7 : Int) 3 = [7, 7, 7] := by
  have h0 : rangeLoop 1 0 1 = [] := by
    unfold rangeLoop
    norm_num
  have h3 : rangeLoop 1 3 1 = [1, 2] := by
    unfold rangeLoop
    norm_num
    unfold rangeLoop
    norm_num
    unfold rangeLoop
    norm_num
  constructor <;> simp [repeatTimes, range, h0, h3]

/-- C4: `checkAllFulfill` returns true iff every element satisfies the
predicate, returns true on a zero-element iterator, and stops pulling at the
first failing element: everything after the first counterexample is left
unconsumed. -/
theorem checkAllFulfill_spec :
    ∀ (α : Type) (l : List α) (p : α → Bool),
      ((checkAllFulfill l p).1 = true ↔ ∀ x ∈ l, p x = true)
      ∧ checkAllFulfill ([] : List α) p = (true, [])
      ∧ (∀ (l₁ : List α) (x : α) (l₂ : List α), l = l₁ ++ x :: l₂ →
          (∀ y ∈ l₁, p y = true) → p x = false → checkAllFulfill l p = (false, l₂)) := by
  intro α l p
  refine ⟨?_, rfl, ?_⟩
  · rw [checkAllFulfill_fst]
    exact List.all_eq_true
  · intro l₁ x l₂ hsplit h₁ hx
    subst hsplit
    exact checkAllFulfill_break p l₁ x l₂ h₁ hx

/-- Witness for C4 at a concrete input: `[1,2,5,4]` with predicate `< 3`
fails first at 5, so the result is false and 4 is left unconsumed. -/
theorem checkAllFulfill_spec_witness :
    checkAllFulfill [1, 2, 5, 4] (fun k => decide (k < 3)) = (false, [4]) :=
  (checkAllFulfill_spec Nat [1, 2, 5, 4] (fun k => decide (k < 3))).2.2 [1, 2] 5 [4] rfl
    (by decide) (by decide)

/-- C5: `checkAnyFulfills` returns true iff at least one element satisfies
the predicate, returns false on a zero-element iterator, and equals the
negation of `checkAllFulfill` with the pointwise-negated predicate. -/
theorem checkAnyFulfills_spec :
    ∀ (α : Type) (l : List α) (p : α → Bool),
      ((checkAnyFulfills l p).1 = true ↔ ∃ x ∈ l, p x = true)
      ∧ (checkAnyFulfills ([] : List α) p).1 = false
      ∧ (checkAnyFulfills l p).1 = !(checkAllFulfill l (fun e => !(p e))).1 := by
  intro α l p
  refine ⟨?_, rfl, rfl⟩
  rw [checkAnyFulfills_fst]
  exact List.any_eq_true

/-- C6: draining `reverse` applied to `reverse` of a finite sequence
reproduces the sequence in its original order. -/
theorem reverse_involution :
    ∀ (α : Type) (l : List α), spread (reverse (reverse l)) = l := by
  intro α l
  simp [spread, reverse_eq]

/-- C7: spreading `map` equals the element-wise application of the functor to
the spread source, preserving order and length. -/
theorem map_spread_commute :
    ∀ (α β : Type) (l : List α) (f : α → β), spread (map l f) = (spread l).map f := by
  intro α β l f
  simp [spread, map_eq]

/-- C8: `sumCumulatively [1,2,3,4]` yields exactly 1, 3, 6, 10 and ends; in
general the n-th yielded value (0-indexed) is the sum of the first n+1 input
elements, the running total being seeded at 0. -/
theorem sumCumulatively_spec :
    sumCumulatively [1, 2, 3, 4] = [1, 3, 6, 10]
    ∧ ∀ (l : List Int) (n : Nat), n < l.length →
        (sumCumulatively l)[n]? = some ((l.take (n + 1)).sum) := by
  refine ⟨by decide, ?_⟩
  intro l n hn
  have h := smear_sum l 0 n hn
  simpa [sumCumulatively] using h

/-- Witness for C8 at a concrete input. -/
theorem sumCumulatively_spec_witness :
    (sumCumulatively [5, 6])[1]? = some ((([5, 6] : List Int).take (1 + 1)).sum) :=
  sumCumulatively_spec.2 [5, 6] 1 (by decide)

/-- C9: constructing a `PeekableIterator` pulls exactly one result from the
source (the wrapper buffers the first result and holds the advanced source);
`peek` returns the buffered result without pulling; `next` returns the
buffered result and pulls exactly one replacement; and the sequence of
results emitted by `next` equals the sequence the source would have
emitted. -/
theorem peekableIterator_spec :
    ∀ (α : Type) (l : List α) (n : Nat) (p : PeekableIterator α),
      (PeekableIterator.create l)._iterator = l.tail
      ∧ (PeekableIterator.create l).peek = l.head?
      ∧ p.peek = p._nextResult
      ∧ p.next.1 = p.peek
      ∧ p.next.2._nextResult = (pull p._iterator).1
      ∧ p.next.2._iterator = (pull p._iterator).2
      ∧ emitViaPeekable n (PeekableIterator.create l) = emitViaSource n l := by
  intro α l n p
  refine ⟨?_, ?_, rfl, rfl, rfl, rfl, emitViaPeekable_eq n l⟩
  · simp [PeekableIterator.create, pull_eq]
  · simp [PeekableIterator.create, PeekableIterator.peek, pull_eq]

/-- C10: `zip` applied to an empty tuple of iterators never signals
exhaustion: every step yields the empty tuple because the all-exhausted check
is vacuously satisfied, so draining the zipped sequence runs out of any
amount of fuel. -/
theorem zip_empty_never_ends :
    ∀ (α : Type), zipStep ([] : List (List α)) = ZipStep.yield [] []
      ∧ ∀ (n : Nat), zipRun n ([] : List (List α)) = none := by
  intro α
  refine ⟨rfl, ?_⟩
  intro n
  induction n with
  | zero => rfl
  | succ n ih =>
    show Option.map (Except.map (fun t => ([] : List α) :: t)) (zipRun n []) = none
    rw [ih]
    rfl

end Iterating
